import Mathlib

/-!
Verification development for the calorista repository.

The definitions below are shallow embeddings of the Python source:
  * `convert_days_to_date`, `create_entry_fingerprint`, `load_entries_to_redis`
    from `src/calorista/main.py` (the sync/merge core),
  * `process_file` validation from `src/calorista/load_historical_to_redis.py`,
  * `FatSecretAPI._make_request` and `get_historical_food_entries` from
    `src/utils/api.py` / `src/calorista/utils/api.py`,
  * `_generate_signature` from `src/utils/api.py` / `src/calorista/utils/auth.py`,
  * `TokenManager` from `src/utils/token_manager.py` and from
    `src/calorista/utils/auth.py`, and `CredentialEngine` from
    `src/calorista/utils/credential_engine.py`.

External collaborators (the `datetime`, `json`, `hashlib`, `requests` libraries,
the Redis store, the HTTP remote) are modelled as explicit state or as oracle
parameters, as noted at each definition.
-/

namespace Calorista

/-- Python exceptions that escape the functions we model.  `valueError` and
`typeError` are the ones `convert_days_to_date` catches; `overflowError`
(raised by `int(float('inf'))` and by out-of-range `datetime` arithmetic) is
not caught anywhere in the source. -/
inductive PyErr where
  | valueError
  | typeError
  | overflowError
  deriving DecidableEq, Repr

instance {ε α : Type} [DecidableEq ε] [DecidableEq α] : DecidableEq (Except ε α)
  | .ok a, .ok b =>
    if h : a = b then .isTrue (by rw [h]) else .isFalse (by intro hc; cases hc; exact h rfl)
  | .error a, .error b =>
    if h : a = b then .isTrue (by rw [h]) else .isFalse (by intro hc; cases hc; exact h rfl)
  | .ok _, .error _ => .isFalse (by intro hc; cases hc)
  | .error _, .ok _ => .isFalse (by intro hc; cases hc)

/-! ### Proleptic-Gregorian date arithmetic

`src/calorista/main.py` computes `datetime(1970, 1, 1) + timedelta(days=days)`
and formats with `strftime("%Y-%m-%d")`.  Python's `datetime` uses the
proleptic Gregorian calendar with ordinals 1 (= 0001-01-01) to 3652059
(= 9999-12-31); 1970-01-01 has ordinal 719163, so the addition succeeds
exactly for `days` in `[-719162, 2932896]` and raises `OverflowError`
otherwise.  `civilFromDays` is the standard civil-from-days conversion for
that calendar, shifted so its input is days since 1970-01-01. -/

/-- Convert days since 1970-01-01 (with `z ≥ -719468`) to `(year, month, day)`
in the proleptic Gregorian calendar, the calendar of Python `datetime`. -/
def civilFromDays (z : Int) : Nat × Nat × Nat :=
  let days := (z + 719468).toNat
  let era := days / 146097
  let doe := days % 146097
  let yoe := (doe - doe / 1460 + doe / 36524 - doe / 146096) / 365
  let y := yoe + era * 400
  let doy := doe - (365 * yoe + yoe / 4 - yoe / 100)
  let mp := (5 * doy + 2) / 153
  let d := doy - (153 * mp + 2) / 5 + 1
  let m := if mp < 10 then mp + 3 else mp - 9
  (if m ≤ 2 then y + 1 else y, m, d)

/-- Left-pad the decimal rendering of `n` with zeros to width `w`
(`strftime` zero-pads `%Y` to 4 and `%m`/`%d` to 2 digits). -/
def padNum (w : Nat) (n : Nat) : String :=
  let s := toString n
  String.mk (List.replicate (w - s.length) '0') ++ s

/-- Python `strftime("%Y-%m-%d")` applied to 1970-01-01 plus `z` days. -/
def formatEpochDay (z : Int) : String :=
  let c := civilFromDays z
  padNum 4 c.1 ++ "-" ++ padNum 2 c.2.1 ++ "-" ++ padNum 2 c.2.2

/-- Inverse direction (used by `strptime("%Y-%m-%d")` callers): days since
1970-01-01 of the Gregorian date `(y, m, d)`, for `y ≥ 1`. -/
def daysFromCivil (y m d : Nat) : Int :=
  let y' := if m ≤ 2 then y - 1 else y
  let era := y' / 400
  let yoe := y' % 400
  let doy := (153 * (if m > 2 then m - 3 else m + 9) + 2) / 5 + (d - 1)
  let doe := yoe * 365 + yoe / 4 - yoe / 100 + doy
  (era : Int) * 146097 + (doe : Int) - 719468

/-- Number of days in month `m` of year `y` (proleptic Gregorian). -/
def daysInMonth (y m : Nat) : Nat :=
  if m = 2 then
    if y % 4 = 0 ∧ (y % 100 ≠ 0 ∨ y % 400 = 0) then 29 else 28
  else if m = 4 ∨ m = 6 ∨ m = 9 ∨ m = 11 then 30
  else 31

/-- Digits to a natural number (most significant first). -/
def digitsToNat (ds : List Char) : Nat :=
  ds.foldl (fun acc c => acc * 10 + (c.toNat - '0'.toNat)) 0

/-- Split a character list at every occurrence of `sep` (the `str.split`
behaviour `strptime`'s format matching induces for `"%Y-%m-%d"`). -/
def splitOnChar (sep : Char) : List Char → List (List Char)
  | [] => [[]]
  | c :: rest =>
    match splitOnChar sep rest with
    | [] => [[c]]
    | g :: gs => if c = sep then [] :: g :: gs else (c :: g) :: gs

/-- Value `digitsToNat` of a nonempty all-digit group, `none` otherwise. -/
def digitGroupToNat (cs : List Char) : Option Nat :=
  if cs ≠ [] ∧ cs.all Char.isDigit then some (digitsToNat cs) else none

/-- Python `datetime.strptime(s, "%Y-%m-%d").date()` rendered as days since
1970-01-01; `none` models the `ValueError` raised on malformed input. -/
def parseDateToDays (s : String) : Option Int :=
  match splitOnChar '-' s.toList with
  | [ys, ms, ds] =>
    match digitGroupToNat ys, digitGroupToNat ms, digitGroupToNat ds with
    | some y, some m, some d =>
      if 1 ≤ y ∧ y ≤ 9999 ∧ 1 ≤ m ∧ m ≤ 12 ∧ 1 ≤ d ∧ d ≤ daysInMonth y m then
        some (daysFromCivil y m d)
      else none
    | _, _, _ => none
  | _ => none

/-! ### The Python expression `int(float(s))`

`convert_days_to_date` runs `days = int(float(days_str))`.  `float` parses
the CPython float-literal grammar (optional ASCII whitespace, optional sign,
`inf`/`infinity`/`nan` case-insensitively, or a decimal with optional
fraction, optional exponent, and underscores allowed only between digits);
a string that overflows the double range parses to an infinity.  `int`
truncates toward zero, raising `OverflowError` on infinities and
`ValueError` on NaN.  We model the finite value as the exactly-truncated
decimal value; this matches CPython whenever the value is representable
without rounding across an integer boundary (all day-count inputs are). -/

inductive PyFloatVal where
  | finite (v : Int)
  | infinite
  | nanVal
  | invalid
  deriving DecidableEq, Repr

/-- Consume a run of digits in which `_` may appear only between digits,
returning the digits and the rest; `none` on a malformed underscore. -/
def digitRun : List Char → Option (List Char × List Char)
  | [] => some ([], [])
  | '_' :: c :: rest =>
    if c.isDigit then
      match digitRun rest with
      | some (ds, rem) => some (c :: ds, rem)
      | none => none
    else none
  | '_' :: [] => none
  | c :: rest =>
    if c.isDigit then
      match digitRun rest with
      | some (ds, rem) => some (c :: ds, rem)
      | none => none
    else some ([], c :: rest)

/-- ASCII whitespace stripped by `float(str)`. -/
def isPySpace (c : Char) : Bool :=
  c = ' ' ∨ c = '\t' ∨ c = '\n' ∨ c = '\r' ∨ c = '\x0b' ∨ c = '\x0c'

/-- Truncated-toward-zero value of `sign * mantissa * 10 ^ eShift`, where
`ndigits` bounds the decimal length of `mantissa`; magnitudes beyond the
double range become `infinite`, exactly as CPython's `float` parser. -/
def decValue (sign : Int) (mantissa : Nat) (ndigits : Nat) (eShift : Int) : PyFloatVal :=
  if mantissa = 0 then .finite 0
  else if 0 ≤ eShift then
    if 320 < eShift + ndigits then .infinite
    else .finite (sign * (mantissa * 10 ^ eShift.toNat : Nat))
  else
    let k := (-eShift).toNat
    if ndigits < k then .finite 0
    else .finite (sign * (mantissa / 10 ^ k : Nat))

/-- Parse the post-sign, lowercased body of a float literal. -/
def parseFloatBody (sign : Int) (cs : List Char) : PyFloatVal :=
  if cs = ['i', 'n', 'f'] ∨ cs = ['i', 'n', 'f', 'i', 'n', 'i', 't', 'y'] then .infinite
  else if cs = ['n', 'a', 'n'] then .nanVal
  else
    match digitRun cs with
    | none => .invalid
    | some (intDs, rest1) =>
      let fracStep : Option (List Char × List Char) :=
        match rest1 with
        | '.' :: rest2 =>
          match digitRun rest2 with
          | none => none
          | some (fracDs, rest3) => some (fracDs, rest3)
        | _ => some ([], rest1)
      match fracStep with
      | none => .invalid
      | some (fracDs, rest3) =>
        if intDs = [] ∧ fracDs = [] then .invalid
        else
          let mkVal (ex : Int) : PyFloatVal :=
            decValue sign (digitsToNat (intDs ++ fracDs)) (intDs.length + fracDs.length)
              (ex - fracDs.length)
          match rest3 with
          | [] => mkVal 0
          | 'e' :: rest4 =>
            let (esign, rest5) : Int × List Char :=
              match rest4 with
              | '+' :: r => (1, r)
              | '-' :: r => (-1, r)
              | r => (1, r)
            match digitRun rest5 with
            | some (eDs, []) => if eDs = [] then .invalid else mkVal (esign * digitsToNat eDs)
            | _ => .invalid
          | _ => .invalid

/-- The Python expression `int(float(s))`, as a value or the exception the
conversion raises. -/
def pyIntFloat (s : String) : PyFloatVal :=
  let stripped := ((s.toList.dropWhile isPySpace).reverse.dropWhile isPySpace).reverse
  let lowered := stripped.map Char.toLower
  match lowered with
  | '+' :: rest => parseFloatBody 1 rest
  | '-' :: rest => parseFloatBody (-1) rest
  | rest => parseFloatBody 1 rest

/-- Smallest days-since-epoch value `datetime` accepts (0001-01-01). -/
def minEpochDay : Int := -719162

/-- Largest days-since-epoch value `datetime` accepts (9999-12-31). -/
def maxEpochDay : Int := 2932896

/-- Function `convert_days_to_date` from `src/calorista/main.py` (the identical copy
lives in `src/calorista/load_historical_to_redis.py`):

    try:
        days = int(float(days_str))
        return (datetime(1970, 1, 1) + timedelta(days=days)).strftime("%Y-%m-%d")
    except (ValueError, TypeError):
        return None

`.ok none` is the caught-exception path; `.error .overflowError` is the
uncaught `OverflowError` from `int` on an infinity or from `datetime`
arithmetic leaving the year range 1–9999. -/
def convert_days_to_date (days_str : String) : Except PyErr (Option String) :=
  match pyIntFloat days_str with
  | .invalid => .ok none
  | .nanVal => .ok none
  | .infinite => .error .overflowError
  | .finite v =>
    if v < minEpochDay ∨ maxEpochDay < v then .error .overflowError
    else .ok (some (formatEpochDay v))

/-! ### Entries, fingerprints and the Redis merge

`src/calorista/main.py` manipulates fetched entries as JSON dicts.  The code
reads exactly the keys `food_entry_id`, `date_int`, `timestamp` and
`food_entry_name`, and otherwise only compares whole entries with `!=`; we
model an entry as those four optional string fields plus the remaining
key/value items in their JSON order, so that structural equality coincides
with Python dict equality for entries rendered in a fixed field order. -/

structure Entry where
  food_entry_id : Option String := none
  date_int : Option String := none
  timestamp : Option String := none
  food_entry_name : Option String := none
  rest : List (String × String) := []
  deriving DecidableEq, Repr

/-- Function `create_entry_fingerprint` from `src/calorista/main.py`:
`f"{entry.get('food_entry_id', '')}_{entry.get('date_int', '')}_{entry.get('timestamp', '')}"`. -/
def create_entry_fingerprint (e : Entry) : String :=
  e.food_entry_id.getD "" ++ "_" ++ e.date_int.getD "" ++ "_" ++ e.timestamp.getD ""

/-- The value a Python dict comprehension
`{create_entry_fingerprint(e): e for e in l if "food_entry_id" in e}`
associates to key `k`: the last matching element wins. -/
def lookupLastFp (l : List Entry) (k : String) : Option Entry :=
  match l with
  | [] => none
  | e :: rest =>
    match lookupLastFp rest k with
    | some r => some r
    | none =>
      if e.food_entry_id.isSome ∧ create_entry_fingerprint e = k then some e else none

/-- The list `entries_to_update` computed for one date group in
`load_entries_to_redis`: a new entry is kept when its fingerprint is absent
from the existing-fingerprint dict or the stored entry differs. -/
def entriesToUpdate (existing newEntries : List Entry) : List Entry :=
  newEntries.filter fun e =>
    match lookupLastFp existing (create_entry_fingerprint e) with
    | none => true
    | some ex => decide (e ≠ ex)

/-- The `updated_entries` list written back for one date group: existing
entries whose fingerprint is superseded are dropped, then the updates are
appended. -/
def mergedEntries (existing upd : List Entry) : List Entry :=
  existing.filter
    (fun e => decide (create_entry_fingerprint e ∉ upd.map create_entry_fingerprint))
    ++ upd

/-- Contents of the date bucket after `load_entries_to_redis` processes one
date group against `existing` (no write happens when `entries_to_update` is
empty). -/
def bucketAfterMerge (existing newEntries : List Entry) : List Entry :=
  if entriesToUpdate existing newEntries = [] then existing
  else mergedEntries existing (entriesToUpdate existing newEntries)

/-- The Redis picture the sync touches: the per-date buckets (keyed by the
full `"food_entries:<date>"` key), the `date_mappings` hash, and the list of
dates for which a bucket `SET` was issued, in order. -/
structure SyncState where
  cache : String → Option (List Entry)
  mappings : String → Option String
  writes : List String

/-- Pointwise update of a key-value map. -/
def setKey {α : Type} (f : String → Option α) (k : String) (v : α) :
    String → Option α :=
  fun k' => if k' = k then some v else f k'

/-- The expression `str(new_entries[0]["date_int"])` — every grouped entry carries
`date_int`, so the group head's field is present. -/
def firstDateInt (l : List Entry) : String :=
  match l with
  | [] => ""
  | e :: _ => e.date_int.getD ""

/-- Body of the per-date loop of `load_entries_to_redis`: read the existing
bucket (`exists` + `json.loads(get)`), compute `entries_to_update`, and if it
is non-empty write the merged bucket and the date-mapping entry. -/
def processGroup (st : SyncState) (date : String) (newEntries : List Entry) :
    SyncState :=
  if entriesToUpdate ((st.cache ("food_entries:" ++ date)).getD []) newEntries = [] then st
  else
    { cache := setKey st.cache ("food_entries:" ++ date)
        (mergedEntries ((st.cache ("food_entries:" ++ date)).getD [])
          (entriesToUpdate ((st.cache ("food_entries:" ++ date)).getD []) newEntries))
      mappings := setKey st.mappings date (firstDateInt newEntries)
      writes := st.writes ++ [date] }

/-- The whole per-date loop, over the groups in insertion order. -/
def processGroups (st : SyncState) : List (String × List Entry) → SyncState
  | [] => st
  | (d, g) :: rest => processGroups (processGroup st d g) rest

/-- The statement `date_groups[human_date].append(entry)` on a `defaultdict(list)`:
append to the group if the date is present, otherwise add a new group. -/
def addToGroup (groups : List (String × List Entry)) (d : String) (e : Entry) :
    List (String × List Entry) :=
  match groups with
  | [] => [(d, [e])]
  | (d', es) :: rest =>
    if d' = d then (d', es ++ [e]) :: rest else (d', es) :: addToGroup rest d e

/-- The grouping/validation loop of `load_entries_to_redis`: skip entries
missing `date_int` or `food_entry_id`, skip entries whose date conversion
returns `None`, group the others by human date.  A conversion that raises
propagates out of the loop. -/
def processEntries (groups : List (String × List Entry)) (loaded skipped : Nat) :
    List Entry → Except PyErr (List (String × List Entry) × Nat × Nat)
  | [] => .ok (groups, loaded, skipped)
  | e :: restEntries =>
    if e.date_int = none ∨ e.food_entry_id = none then
      processEntries groups loaded (skipped + 1) restEntries
    else
      match convert_days_to_date (e.date_int.getD "") with
      | .error err => .error err
      | .ok none => processEntries groups loaded (skipped + 1) restEntries
      | .ok (some d) => processEntries (addToGroup groups d e) (loaded + 1) skipped restEntries

/-- Result of `load_entries_to_redis`: the final store state plus the printed
summary counters. -/
structure LoadResult where
  state : SyncState
  loaded : Nat
  skipped : Nat
  total : Nat

/-- Function `load_entries_to_redis` from `src/calorista/main.py`, as a function of
the initial Redis contents.  The `.error` case is an exception escaping the
function (only possible from `convert_days_to_date`'s uncaught
`OverflowError`). -/
def load_entries_to_redis (cache : String → Option (List Entry))
    (mappings : String → Option String) (entries : List Entry) :
    Except PyErr LoadResult :=
  match processEntries [] 0 0 entries with
  | .error err => .error err
  | .ok (groups, loaded, skipped) =>
    .ok { state := processGroups ⟨cache, mappings, []⟩ groups
          loaded := loaded
          skipped := skipped
          total := entries.length }

/-! ### Token stores

The token file is modelled by its observable states: absent, zero bytes,
present-but-invalid JSON, or a JSON-serialized token dict (what `json.dump`
of a `Dict[str, str]` writes, which `json.load` reads back unchanged). -/

inductive FileState where
  | missing
  | emptyFile
  | malformed
  | stored (tokens : List (String × String))
  deriving DecidableEq, Repr

/-- Call of `json.load` on an open token file: raises `JSONDecodeError` (a
`ValueError`) on an empty or malformed file, returns the stored dict
otherwise.  A `missing` file never reaches `json.load` in either
implementation below because both test `exists()` first; we map it to an
error as `open` would raise. -/
def jsonLoadTokens : FileState → Except PyErr (List (String × String))
  | .missing => .error .valueError
  | .emptyFile => .error .valueError
  | .malformed => .error .valueError
  | .stored d => .ok d

/-- Method `TokenManager._load_tokens` from `src/utils/token_manager.py`:

    try:
        if self.token_file.exists():
            if self.token_file.stat().st_size == 0:
                return {}
            with open(self.token_file, 'r') as f:
                return json.load(f)
        return {}
    except (json.JSONDecodeError, IOError):
        return {}

Every exception the body can raise is caught, so the result is a plain
dict.  `CredentialEngine._load_tokens` in
`src/calorista/utils/credential_engine.py` has the same structure (it
catches `OSError` and `json.JSONDecodeError`). -/
def TokenManager.load_tokens (file : FileState) : List (String × String) :=
  let attempt : Except PyErr (List (String × String)) :=
    match file with
    | .missing => .ok []
    | .emptyFile => .ok []
    | f => jsonLoadTokens f
  match attempt with
  | .ok d => d
  | .error _ => []

/-- Method `TokenManager._load_tokens` from `src/calorista/utils/auth.py`:

    if self.token_file.exists():
        with open(self.token_file) as f:
            return json.load(f)
    return {}

No size check and no `try`/`except`: a decode error propagates. -/
def CaloristaTokenManager.load_tokens (file : FileState) :
    Except PyErr (List (String × String)) :=
  match file with
  | .missing => .ok []
  | f => jsonLoadTokens f

/-- In-memory plus on-disk state of a `TokenManager`. -/
structure TokenManagerState where
  file : FileState
  tokens : List (String × String)
  deriving DecidableEq, Repr

/-- Method `TokenManager.save_tokens` (identical shape in
`src/utils/token_manager.py` and `CredentialEngine.save_tokens` in
`src/calorista/utils/credential_engine.py`): `json.dump(tokens, f)` then
`self.tokens = tokens`. -/
def TokenManager.save_tokens (_st : TokenManagerState)
    (tokens : List (String × String)) : TokenManagerState :=
  { file := .stored tokens, tokens := tokens }

/-- Method `TokenManager.get_tokens`: `self.tokens if self.tokens else None`. -/
def TokenManager.get_tokens (st : TokenManagerState) :
    Option (List (String × String)) :=
  if st.tokens = [] then none else some st.tokens

/-! ### The OAuth 1.0a signature -/

/-- Bytes `urllib.parse.quote` leaves unquoted when `safe=''`: ASCII
letters, digits, `_`, `.`, `-`, `~`. -/
def isUnreservedByte (b : UInt8) : Bool :=
  (65 ≤ b ∧ b ≤ 90) ∨ (97 ≤ b ∧ b ≤ 122) ∨ (48 ≤ b ∧ b ≤ 57) ∨
    b = 95 ∨ b = 46 ∨ b = 45 ∨ b = 126

/-- Uppercase hex digit of a value below 16. -/
def hexDigit (n : Nat) : Char :=
  if n < 10 then Char.ofNat ('0'.toNat + n) else Char.ofNat ('A'.toNat + n - 10)

/-- Python `urllib.parse.quote(s, safe='')`: percent-encode every UTF-8 byte
outside the unreserved set, with uppercase hex. -/
def pquote (s : String) : String :=
  String.mk <| s.toUTF8.toList.foldr
    (fun b acc =>
      if isUnreservedByte b then Char.ofNat b.toNat :: acc
      else '%' :: hexDigit (b.toNat / 16) :: hexDigit (b.toNat % 16) :: acc)
    []

/-- The comparison Python's `sorted` applies to `params.items()`:
lexicographic on the `(key, value)` tuple, by code-point string order. -/
def pairLe (p q : String × String) : Prop :=
  p.1 < q.1 ∨ (p.1 = q.1 ∧ p.2 ≤ q.2)

instance : DecidableRel pairLe := fun p q => by
  unfold pairLe; infer_instance

instance : IsTotal (String × String) pairLe where
  total p q := by
    rcases lt_trichotomy p.1 q.1 with h | h | h
    · exact Or.inl (Or.inl h)
    · rcases le_total p.2 q.2 with h2 | h2
      · exact Or.inl (Or.inr ⟨h, h2⟩)
      · exact Or.inr (Or.inr ⟨h.symm, h2⟩)
    · exact Or.inr (Or.inl h)

instance : IsTrans (String × String) pairLe where
  trans p q r hpq hqr := by
    rcases hpq with h | ⟨he, h2⟩
    · rcases hqr with h' | ⟨he', _⟩
      · exact Or.inl (h.trans h')
      · exact Or.inl (he' ▸ h)
    · rcases hqr with h' | ⟨he', h2'⟩
      · exact Or.inl (he ▸ h')
      · exact Or.inr ⟨he.trans he', h2.trans h2'⟩

instance : IsAntisymm (String × String) pairLe where
  antisymm p q hpq hqp := by
    rcases hpq with h | ⟨he, h2⟩
    · rcases hqp with h' | ⟨he', _⟩
      · exact absurd (h.trans h') (lt_irrefl _)
      · exact absurd h (he' ▸ lt_irrefl _)
    · rcases hqp with h' | ⟨_, h2'⟩
      · exact absurd h' (he ▸ lt_irrefl _)
      · exact Prod.ext he (le_antisymm h2 h2')

/-- Python `sorted(params.items())`.  Python's sort and `List.insertionSort` agree:
for a total, transitive, antisymmetric comparison the sorted arrangement of
a list is unique. -/
def sortedParams (params : List (String × String)) : List (String × String) :=
  params.insertionSort pairLe

/-- Method `_generate_signature` from `src/utils/api.py` (the same routine appears
in `src/calorista/utils/api.py`, `src/calorista/utils/auth.py` and
`src/calorista/utils/credential_engine.py`):

    param_string = "&".join(f"{k}={quote(str(v), safe='')}" for k, v in sorted(params.items()))
    base_string = "&".join(["GET", quote(url, safe=""), quote(param_string, safe="")])
    signing_key = f"{CONSUMER_SECRET}&{token_secret}"
    return b64encode(hmac_sha1(signing_key, base_string))

`hmacSha1B64` abstracts the external `hmac`/`hashlib`/`base64` pipeline,
which is a pure function of the signing key and the base string. -/
def generate_signature (hmacSha1B64 : String → String → String)
    (url consumerSecret tokenSecret : String)
    (params : List (String × String)) : String :=
  let paramStr :=
    String.intercalate "&" ((sortedParams params).map fun kv => kv.1 ++ "=" ++ pquote kv.2)
  let baseStr := String.intercalate "&" ["GET", pquote url, pquote paramStr]
  let signingKey := consumerSecret ++ "&" ++ tokenSecret
  hmacSha1B64 signingKey baseStr

/-! ### The API client's retry loop -/

/-- What one `requests.get` can come back with: a parsed 200 body, a non-200
status with body text, or a transport failure (`RequestException`). -/
inductive HttpResponse where
  | ok (body : String)
  | httpError (status : Nat) (body : String)
  | netFail (message : String)
  deriving DecidableEq, Repr

/-- Errors `_make_request` raises after exhausting its options. -/
inductive ApiFailure where
  | apiError (status : Nat) (body : String)
  | networkError (message : String)
  deriving DecidableEq, Repr

/-- Outcome of a `_make_request` call together with the observable effort:
how many HTTP requests were issued and how many token refreshes ran. -/
structure RequestOutcome where
  result : Except ApiFailure String
  requests : Nat
  refreshes : Nat
  deriving DecidableEq, Repr

/-- Does `hay` start with `needle`? -/
def startsWithChars : List Char → List Char → Bool
  | [], _ => true
  | _ :: _, [] => false
  | a :: as, b :: bs => a = b && startsWithChars as bs

/-- Does `hay` contain `needle` as a contiguous run (Python `in` on str)? -/
def charsContain (needle hay : List Char) : Bool :=
  if startsWithChars needle hay then true
  else
    match hay with
    | [] => false
    | _ :: t => charsContain needle t

/-- The test `'token' in error_msg` for `error_msg = response.text.lower()`.
Substring containment, on (ASCII-)lowercased text. -/
def bodyMentionsToken (body : String) : Bool :=
  charsContain ('t' :: 'o' :: 'k' :: 'e' :: 'n' :: []) (body.toList.map Char.toLower)

/-- Method `FatSecretAPI._make_request` from `src/utils/api.py` (retry structure
identical in `src/calorista/utils/api.py`), with the HTTP exchange for the
`n`-th attempt supplied by the oracle `respond`:

    response = requests.get(...)
    if response.status_code == 200: return response.json()
    error_msg = response.text.lower()
    if 'token' in error_msg and attempt < self.max_retries:
        self._refresh_tokens()
        return self._make_request(method, params, attempt + 1)
    raise Exception(f"API request failed ...")
  except RequestException:
    if attempt < self.max_retries: return self._make_request(method, params, attempt + 1)
    raise Exception(f"Network error: ...")
-/
def make_request (maxRetries : Nat) (respond : Nat → HttpResponse)
    (attempt : Nat) : RequestOutcome :=
  match respond attempt with
  | .ok body => { result := .ok body, requests := 1, refreshes := 0 }
  | .httpError status body =>
    if bodyMentionsToken body ∧ attempt < maxRetries then
      let r := make_request maxRetries respond (attempt + 1)
      { r with requests := r.requests + 1, refreshes := r.refreshes + 1 }
    else { result := .error (.apiError status body), requests := 1, refreshes := 0 }
  | .netFail msg =>
    if attempt < maxRetries then
      let r := make_request maxRetries respond (attempt + 1)
      { r with requests := r.requests + 1 }
    else { result := .error (.networkError msg), requests := 1, refreshes := 0 }
termination_by maxRetries + 1 - attempt
decreasing_by
  · omega
  · omega

/-! ### The historical range fetch -/

/-- What `get_historical_food_entries` accumulates: the per-day successful
payloads in order, the skipped days — the `print(f"[{current}] Failed to
fetch entries: {e}")` log — and the days for which a `_make_request` call
was issued. -/
structure FetchTrace where
  results : List String
  skipped : List (Int × String)
  called : List Int
  deriving DecidableEq, Repr

/-- One iteration of the range-walk loop body: a successful
`_make_request` appends its payload to `all_entries`, an exception is
printed (the skip report) and the loop continues; either way the day was
called. -/
def mergeDayResult (d : Int) (r : Except String String) (rest : FetchTrace) :
    FetchTrace :=
  match r with
  | .ok v => { results := v :: rest.results, skipped := rest.skipped,
               called := d :: rest.called }
  | .error msg => { results := rest.results, skipped := (d, msg) :: rest.skipped,
                    called := d :: rest.called }

/-- The `while current <= end` loop of
`FatSecretAPI.get_historical_food_entries` in `src/calorista/utils/api.py`,
with the per-day `_make_request("food_entries.get.v2", {date: d})` outcome
supplied by the oracle `fetch` (keyed by days since 1970-01-01). -/
def fetchRangeLoop (fetch : Int → Except String String) (endDay : Int)
    (current : Int) : FetchTrace :=
  if h : current ≤ endDay then
    mergeDayResult current (fetch current) (fetchRangeLoop fetch endDay (current + 1))
  else { results := [], skipped := [], called := [] }
termination_by (endDay + 1 - current).toNat
decreasing_by
  simp_wf
  omega

/-- Method `get_historical_food_entries(start_date, end_date)`: parse the two
`YYYY-MM-DD` bounds with `strptime` (raising `ValueError` on malformed
input) and walk the closed day range. -/
def get_historical_food_entries (fetch : Int → Except String String)
    (startDate endDate : String) : Except PyErr FetchTrace :=
  match parseDateToDays startDate, parseDateToDays endDate with
  | some s, some e => .ok (fetchRangeLoop fetch e s)
  | _, _ => .error .valueError

/-- The closed integer interval `[lo, hi]` as a list. -/
def dayRange (lo hi : Int) : List Int :=
  (List.range (hi + 1 - lo).toNat).map fun i : Nat => lo + (i : Int)

/-- No two list members share a fingerprint.  `get_historical_entries` in
`src/calorista/main.py` guarantees this for the entry list it hands to
`load_entries_to_redis` (it drops any entry whose fingerprint is already in
its `seen_entries` set). -/
def fpDistinct (l : List Entry) : Prop :=
  l.Pairwise fun a b => create_entry_fingerprint a ≠ create_entry_fingerprint b

instance (l : List Entry) : Decidable (fpDistinct l) := by
  unfold fpDistinct
  infer_instance

/-- The per-day payloads an unaborted range walk returns: one for each day
of the closed range whose fetch succeeded, in order. -/
def rangeResults (fetch : Int → Except String String) (lo hi : Int) : List String :=
  (dayRange lo hi).filterMap fun d => (fetch d).toOption

/-- The skip list of the range walk: each failing day with its message. -/
def rangeSkipped (fetch : Int → Except String String) (lo hi : Int) :
    List (Int × String) :=
  (dayRange lo hi).filterMap fun d =>
    match fetch d with
    | .ok _ => none
    | .error m => some (d, m)

/-- Two concrete entries agreeing on `(food_entry_id, date_int, timestamp)`
but with different names: equal fingerprints, unequal dicts. -/
def ceApple : Entry :=
  { food_entry_id := some "a", date_int := some "20180", timestamp := some "t1",
    food_entry_name := some "apple" }

/-- See `ceApple`. -/
def ceBanana : Entry :=
  { food_entry_id := some "a", date_int := some "20180", timestamp := some "t1",
    food_entry_name := some "banana" }

/-- An entry whose `date_int` is the string `"inf"`. -/
def ceInf : Entry :=
  { food_entry_id := some "a", date_int := some "inf", timestamp := some "t1" }

/-- An entry for day 20180 used to test bucket placement. -/
def ceDay : Entry :=
  { food_entry_id := some "a", date_int := some "20180" }

/-- The empty Redis bucket map. -/
def emptyCache : String → Option (List Entry) := fun _ => none

/-- The empty `date_mappings` hash. -/
def emptyMappings : String → Option String := fun _ => none

/-- Run the sync merge twice with the same two same-fingerprint entries,
the second time against the cache produced by the first, and report the
second run's writes and the bucket contents after each run. -/
def syncTwiceObservation :
    Except PyErr (List String × Option (List Entry) × Option (List Entry)) := do
  let r1 ← load_entries_to_redis emptyCache emptyMappings [ceApple, ceBanana]
  let r2 ← load_entries_to_redis r1.state.cache r1.state.mappings [ceApple, ceBanana]
  pure (r2.state.writes, r1.state.cache "food_entries:2025-04-02",
    r2.state.cache "food_entries:2025-04-02")

/-- A per-day fetch oracle for the range 2025-04-07 (day 20185) to
2025-04-09 (day 20187) in which the middle day raises. -/
def fetchMiddleFails : Int → Except String String := fun d =>
  if d = 20186 then .error "boom" else if d = 20185 then .ok "seven" else .ok "nine"

/-- An entry with an id but no `date_int` key. -/
def ceNoDate : Entry := { food_entry_id := some "x" }

/-- An entry whose `date_int` is a non-numeric string. -/
def ceBadDate : Entry := { food_entry_id := some "x", date_int := some "abc" }

/-- Fallback result used only to give total extractors below a default. -/
def nullLoadResult : LoadResult :=
  { state := { cache := emptyCache, mappings := emptyMappings, writes := [] }
    loaded := 0, skipped := 0, total := 0 }

/-- The (successful) result of syncing `[ceDay]` into an empty store. -/
def c3run : LoadResult :=
  match load_entries_to_redis emptyCache emptyMappings [ceDay] with
  | .ok r => r
  | .error _ => nullLoadResult

/-- First and second runs of the sync with the single entry `ceApple`. -/
def c1run1 : LoadResult :=
  match load_entries_to_redis emptyCache emptyMappings [ceApple] with
  | .ok r => r
  | .error _ => nullLoadResult

/-- See `c1run1`. -/
def c1run2 : LoadResult :=
  match load_entries_to_redis c1run1.state.cache c1run1.state.mappings [ceApple] with
  | .ok r => r
  | .error _ => nullLoadResult

/-- An HTTP oracle whose first attempt is a token-related 401 and whose
second attempt succeeds. -/
def c4respond : Nat → HttpResponse := fun n =>
  if n = 0 then .httpError 401 "Missing oauth token" else .ok "profile-body"

/-- A valid entry of the date-`d` group: carries an id, and its `date_int`
converts to the human date `d`. -/
def entryOK (d : String) (e : Entry) : Prop :=
  e.food_entry_id.isSome ∧
    ∃ ds, e.date_int = some ds ∧ convert_days_to_date ds = .ok (some d)

/-- Well-formedness of the grouping accumulator: distinct dates, and each
group holds fingerprint-distinct valid entries of its date. -/
def groupsInv (groups : List (String × List Entry)) : Prop :=
  (groups.map Prod.fst).Nodup ∧
    ∀ p ∈ groups, fpDistinct p.2 ∧ ∀ e ∈ p.2, entryOK p.1 e

/-- No fingerprint collision between already-grouped entries and the
entries still to be processed. -/
def crossNe (groups : List (String × List Entry)) (rem : List Entry) : Prop :=
  ∀ p ∈ groups, ∀ x ∈ p.2, ∀ e ∈ rem,
    create_entry_fingerprint x ≠ create_entry_fingerprint e

/-- The grouping loop skips `e` without touching any group: it misses a
key, or its date conversion returns `None`. -/
def entrySkipped (e : Entry) : Prop :=
  (e.date_int = none ∨ e.food_entry_id = none) ∨
    convert_days_to_date (e.date_int.getD "") = .ok none

/-! ## Supporting lemmas about the merge -/

theorem lookupLastFp_append (a b : List Entry) (k : String) :
    lookupLastFp (a ++ b) k =
      match lookupLastFp b k with
      | some r => some r
      | none => lookupLastFp a k := by
  induction a with
  | nil =>
    rw [show ([] : List Entry) ++ b = b from rfl]
    cases lookupLastFp b k <;> rfl
  | cons e a ih =>
    have hstep : lookupLastFp ((e :: a) ++ b) k =
        match lookupLastFp (a ++ b) k with
        | some r => some r
        | none =>
          if e.food_entry_id.isSome ∧ create_entry_fingerprint e = k then some e
          else none := rfl
    have hstep2 : lookupLastFp (e :: a) k =
        match lookupLastFp a k with
        | some r => some r
        | none =>
          if e.food_entry_id.isSome ∧ create_entry_fingerprint e = k then some e
          else none := rfl
    rw [hstep, ih, hstep2]
    cases lookupLastFp b k <;> cases lookupLastFp a k <;> rfl

theorem lookupLastFp_eq_none (l : List Entry) (k : String)
    (h : ∀ e ∈ l, ¬(e.food_entry_id.isSome ∧ create_entry_fingerprint e = k)) :
    lookupLastFp l k = none := by
  induction l with
  | nil => rfl
  | cons e l ih =>
    simp only [lookupLastFp]
    rw [ih fun x hx => h x (List.mem_cons_of_mem e hx),
      if_neg (h e (List.mem_cons_self e l))]

theorem lookupLastFp_mem {l : List Entry} {k : String} {e : Entry}
    (h : lookupLastFp l k = some e) :
    e ∈ l ∧ e.food_entry_id.isSome ∧ create_entry_fingerprint e = k := by
  induction l with
  | nil => simp [lookupLastFp] at h
  | cons x l ih =>
    simp only [lookupLastFp] at h
    cases hl : lookupLastFp l k with
    | some r =>
      rw [hl] at h
      obtain rfl : r = e := by injection h
      obtain ⟨h1, h2⟩ := ih hl
      exact ⟨List.mem_cons_of_mem x h1, h2⟩
    | none =>
      rw [hl] at h
      by_cases hc : x.food_entry_id.isSome ∧ create_entry_fingerprint x = k
      · rw [if_pos hc] at h
        obtain rfl : x = e := by injection h
        exact ⟨List.mem_cons_self x l, hc⟩
      · rw [if_neg hc] at h
        cases h

theorem lookupLastFp_filter (l : List Entry) (k : String) (P : Entry → Bool)
    (h : ∀ e ∈ l, e.food_entry_id.isSome → create_entry_fingerprint e = k → P e = true) :
    lookupLastFp (l.filter P) k = lookupLastFp l k := by
  induction l with
  | nil => rfl
  | cons e l ih =>
    have ih' := ih fun x hx => h x (List.mem_cons_of_mem e hx)
    by_cases hP : P e = true
    · rw [List.filter_cons_of_pos hP]
      simp only [lookupLastFp, ih']
    · rw [List.filter_cons_of_neg (by simpa using hP)]
      simp only [lookupLastFp, ih']
      have hc : ¬(e.food_entry_id.isSome ∧ create_entry_fingerprint e = k) := by
        rintro ⟨h1, h2⟩
        exact hP (h e (List.mem_cons_self e l) h1 h2)
      rw [if_neg hc]
      cases lookupLastFp l k <;> rfl

theorem lookupLastFp_self_of_distinct {g : List Entry} {e : Entry}
    (hd : fpDistinct g) (he : e ∈ g) (hid : e.food_entry_id.isSome) :
    lookupLastFp g (create_entry_fingerprint e) = some e := by
  induction g with
  | nil => cases he
  | cons x g ih =>
    rcases List.mem_cons.mp he with rfl | he'
    · have hnone : lookupLastFp g (create_entry_fingerprint e) = none := by
        refine lookupLastFp_eq_none _ _ fun y hy => ?_
        rintro ⟨-, hfp⟩
        exact (List.pairwise_cons.mp hd).1 y hy hfp.symm
      simp only [lookupLastFp, hnone]
      simp [hid]
    · have := ih (List.pairwise_cons.mp hd).2 he'
      simp only [lookupLastFp, this]

theorem updPred_iff (B : List Entry) (e : Entry) :
    (match lookupLastFp B (create_entry_fingerprint e) with
      | none => true
      | some ex => decide (e ≠ ex)) = true ↔
      lookupLastFp B (create_entry_fingerprint e) ≠ some e := by
  cases hl : lookupLastFp B (create_entry_fingerprint e) with
  | none => simp
  | some ex =>
    simp only [decide_eq_true_eq, ne_eq, Option.some.injEq]
    constructor
    · intro hne heq; exact hne heq.symm
    · intro hne heq; exact hne heq.symm

theorem entriesToUpdate_eq_nil_iff (B g : List Entry) :
    entriesToUpdate B g = [] ↔
      ∀ e ∈ g, lookupLastFp B (create_entry_fingerprint e) = some e := by
  unfold entriesToUpdate
  rw [List.filter_eq_nil_iff]
  refine forall_congr' fun e => forall_congr' fun _ => ?_
  rw [updPred_iff]
  exact not_not

theorem mem_entriesToUpdate {B g : List Entry} {e : Entry} :
    e ∈ entriesToUpdate B g ↔
      e ∈ g ∧ lookupLastFp B (create_entry_fingerprint e) ≠ some e := by
  unfold entriesToUpdate
  rw [List.mem_filter]
  exact and_congr_right fun _ => updPred_iff B e

theorem entriesToUpdate_sublist (B g : List Entry) :
    List.Sublist (entriesToUpdate B g) g :=
  List.filter_sublist g

/-- Entries of one date group keep their exact contents retrievable from the
merged bucket: the heart of idempotence.  Needs only that the group's
fingerprints are distinct and each group entry carries `food_entry_id`. -/
theorem bucketAfterMerge_lookup {B g : List Entry} (hd : fpDistinct g)
    (hv : ∀ e ∈ g, e.food_entry_id.isSome) :
    ∀ e ∈ g, lookupLastFp (bucketAfterMerge B g) (create_entry_fingerprint e) = some e := by
  intro e he
  have hfpne : ∀ a ∈ g, ∀ b ∈ g, a ≠ b →
      create_entry_fingerprint a ≠ create_entry_fingerprint b :=
    fun a ha b hb hab => List.Pairwise.forall (fun {x y} h => (h ∘ Eq.symm)) hd ha hb hab
  unfold bucketAfterMerge
  by_cases hU : entriesToUpdate B g = []
  · rw [if_pos hU]
    exact (entriesToUpdate_eq_nil_iff B g).mp hU e he
  · rw [if_neg hU]
    unfold mergedEntries
    rw [lookupLastFp_append]
    have hdU : fpDistinct (entriesToUpdate B g) :=
      List.Pairwise.sublist (entriesToUpdate_sublist B g) hd
    by_cases heU : e ∈ entriesToUpdate B g
    · rw [lookupLastFp_self_of_distinct hdU heU (hv e he)]
    · have hBe : lookupLastFp B (create_entry_fingerprint e) = some e := by
        have := mem_entriesToUpdate (B := B) (g := g) (e := e)
        by_contra hne
        exact heU (this.mpr ⟨he, hne⟩)
      have hfpU : create_entry_fingerprint e ∉
          (entriesToUpdate B g).map create_entry_fingerprint := by
        intro hmem
        obtain ⟨u, huU, hufp⟩ := List.mem_map.mp hmem
        have hug : u ∈ g := (entriesToUpdate_sublist B g).subset huU
        by_cases hue : u = e
        · exact heU (hue ▸ huU)
        · exact hfpne u hug e he hue hufp
      have hnoneU : lookupLastFp (entriesToUpdate B g) (create_entry_fingerprint e) = none := by
        refine lookupLastFp_eq_none _ _ fun y hy => ?_
        rintro ⟨-, hfp⟩
        exact hfpU (hfp ▸ List.mem_map_of_mem create_entry_fingerprint hy)
      rw [hnoneU]
      have hfilter := lookupLastFp_filter B (create_entry_fingerprint e)
        (fun x => decide (create_entry_fingerprint x ∉
          (entriesToUpdate B g).map create_entry_fingerprint))
        (fun x _ _ hxk => by
          show decide (create_entry_fingerprint x ∉
            (entriesToUpdate B g).map create_entry_fingerprint) = true
          rw [hxk]
          simpa using hfpU)
      rw [hfilter]
      exact hBe


theorem string_append_left_cancel {p a b : String} (h : p ++ a = p ++ b) : a = b := by
  have hd := congrArg String.data h
  simp [String.data_append] at hd
  exact String.ext hd

theorem processGroup_cache_other (st : SyncState) (d : String) (g : List Entry)
    (k : String) (hk : k ≠ "food_entries:" ++ d) :
    (processGroup st d g).cache k = st.cache k := by
  unfold processGroup
  split
  · rfl
  · simp only [setKey, if_neg hk]

theorem processGroup_mappings_other (st : SyncState) (d : String) (g : List Entry)
    (k : String) (hk : k ≠ d) :
    (processGroup st d g).mappings k = st.mappings k := by
  unfold processGroup
  split
  · rfl
  · simp only [setKey, if_neg hk]

theorem processGroup_cache_self (st : SyncState) (d : String) (g : List Entry) :
    ((processGroup st d g).cache ("food_entries:" ++ d)).getD [] =
      bucketAfterMerge ((st.cache ("food_entries:" ++ d)).getD []) g := by
  unfold processGroup bucketAfterMerge
  split
  · rfl
  · simp [setKey]

theorem processGroup_of_nil_upd (st : SyncState) (d : String) (g : List Entry)
    (h : entriesToUpdate ((st.cache ("food_entries:" ++ d)).getD []) g = []) :
    processGroup st d g = st := by
  unfold processGroup
  rw [if_pos h]

theorem processGroups_cache_other (G : List (String × List Entry)) :
    ∀ (st : SyncState) (k : String), (∀ p ∈ G, k ≠ "food_entries:" ++ p.1) →
      (processGroups st G).cache k = st.cache k := by
  induction G with
  | nil => intro st k _; rfl
  | cons p G ih =>
    intro st k hk
    show (processGroups (processGroup st p.1 p.2) G).cache k = st.cache k
    rw [ih _ _ fun q hq => hk q (List.mem_cons_of_mem p hq),
      processGroup_cache_other _ _ _ _ (hk p (List.mem_cons_self p G))]

/-- After the per-date loop runs, every entry of every processed group is
stored, verbatim, as the dict-comprehension value for its fingerprint in its
date's bucket.  Requires distinct dates across groups and distinct
fingerprints with present ids inside each group. -/
theorem processGroups_establishes (G : List (String × List Entry)) :
    ∀ st : SyncState, (G.map Prod.fst).Nodup →
      (∀ p ∈ G, fpDistinct p.2 ∧ ∀ e ∈ p.2, e.food_entry_id.isSome) →
      ∀ p ∈ G, ∀ e ∈ p.2,
        lookupLastFp (((processGroups st G).cache ("food_entries:" ++ p.1)).getD [])
          (create_entry_fingerprint e) = some e := by
  induction G with
  | nil => intro st _ _ p hp; cases hp
  | cons q G ih =>
    intro st hnd hok p hp e he
    have hndG : (G.map Prod.fst).Nodup := (List.nodup_cons.mp (by simpa using hnd)).2
    rcases List.mem_cons.mp hp with rfl | hpG
    · show lookupLastFp
        (((processGroups (processGroup st p.1 p.2) G).cache ("food_entries:" ++ p.1)).getD [])
        (create_entry_fingerprint e) = some e
      have hother : (processGroups (processGroup st p.1 p.2) G).cache
          ("food_entries:" ++ p.1) = (processGroup st p.1 p.2).cache ("food_entries:" ++ p.1) := by
        refine processGroups_cache_other G _ _ fun q' hq' habs => ?_
        have : p.1 = q'.1 := string_append_left_cancel habs
        exact (List.nodup_cons.mp (by simpa using hnd)).1
          (this ▸ List.mem_map_of_mem Prod.fst hq')
      rw [hother, processGroup_cache_self]
      exact bucketAfterMerge_lookup (hok p (List.mem_cons_self p G)).1
        (hok p (List.mem_cons_self p G)).2 e he
    · exact ih (processGroup st q.1 q.2) hndG
        (fun r hr => hok r (List.mem_cons_of_mem q hr)) p hpG e he

/-- If every group's entries are already stored verbatim, the per-date loop
is the identity: no writes, no cache or mapping changes. -/
theorem processGroups_noop (G : List (String × List Entry)) :
    ∀ st : SyncState,
      (∀ p ∈ G, ∀ e ∈ p.2,
        lookupLastFp ((st.cache ("food_entries:" ++ p.1)).getD [])
          (create_entry_fingerprint e) = some e) →
      processGroups st G = st := by
  induction G with
  | nil => intro st _; rfl
  | cons q G ih =>
    intro st h
    have hq : processGroup st q.1 q.2 = st :=
      processGroup_of_nil_upd st q.1 q.2 ((entriesToUpdate_eq_nil_iff _ _).mpr
        (h q (List.mem_cons_self q G)))
    show processGroups (processGroup st q.1 q.2) G = st
    rw [hq]
    exact ih st fun p hp => h p (List.mem_cons_of_mem q hp)

theorem addToGroup_fst (groups : List (String × List Entry)) (d : String) (e : Entry) :
    (addToGroup groups d e).map Prod.fst =
      if d ∈ groups.map Prod.fst then groups.map Prod.fst
      else groups.map Prod.fst ++ [d] := by
  induction groups with
  | nil => simp [addToGroup]
  | cons q groups ih =>
    by_cases hq : q.1 = d
    · show ((if q.1 = d then (q.1, q.2 ++ [e]) :: groups
        else (q.1, q.2) :: addToGroup groups d e).map Prod.fst) = _
      rw [if_pos hq]
      simp [hq]
    · show ((if q.1 = d then (q.1, q.2 ++ [e]) :: groups
        else (q.1, q.2) :: addToGroup groups d e).map Prod.fst) = _
      rw [if_neg hq]
      have hne : ¬ d = q.1 := fun h => hq h.symm
      by_cases hmem : d ∈ groups.map Prod.fst
      · simp [ih, hmem, hne]
      · simp [ih, hmem, hne]

theorem addToGroup_keys_nodup {groups : List (String × List Entry)} {d : String}
    {e : Entry} (h : (groups.map Prod.fst).Nodup) :
    ((addToGroup groups d e).map Prod.fst).Nodup := by
  rw [addToGroup_fst]
  by_cases hmem : d ∈ groups.map Prod.fst
  · rwa [if_pos hmem]
  · rw [if_neg hmem]
    simp [List.nodup_append, h, hmem]

theorem mem_addToGroup_cases {groups : List (String × List Entry)} {d : String}
    {e : Entry} {p : String × List Entry} (hp : p ∈ addToGroup groups d e) :
    p ∈ groups ∨ (∃ es, (d, es) ∈ groups ∧ p = (d, es ++ [e])) ∨ p = (d, [e]) := by
  induction groups with
  | nil =>
    simp only [addToGroup, List.mem_singleton] at hp
    exact Or.inr (Or.inr hp)
  | cons q groups ih =>
    by_cases hq : q.1 = d
    · rw [show addToGroup (q :: groups) d e = (q.1, q.2 ++ [e]) :: groups from by
        simp [addToGroup, hq]] at hp
      rcases List.mem_cons.mp hp with rfl | hpg
      · exact Or.inr (Or.inl ⟨q.2, by simp [← hq], by simp [hq]⟩)
      · exact Or.inl (List.mem_cons_of_mem q hpg)
    · rw [show addToGroup (q :: groups) d e = (q.1, q.2) :: addToGroup groups d e from by
        simp [addToGroup, hq]] at hp
      rcases List.mem_cons.mp hp with rfl | hpg
      · exact Or.inl (List.mem_cons_self _ groups)
      · rcases ih hpg with h | ⟨es, hes, rfl⟩ | rfl
        · exact Or.inl (List.mem_cons_of_mem q h)
        · exact Or.inr (Or.inl ⟨es, List.mem_cons_of_mem q hes, rfl⟩)
        · exact Or.inr (Or.inr rfl)

theorem addToGroup_mono {groups : List (String × List Entry)} (d : String) (e : Entry) :
    ∀ p ∈ groups, ∃ g', (p.1, g') ∈ addToGroup groups d e ∧ ∀ x ∈ p.2, x ∈ g' := by
  induction groups with
  | nil => intro p hp; cases hp
  | cons q groups ih =>
    intro p hp
    by_cases hq : q.1 = d
    · rw [show addToGroup (q :: groups) d e = (q.1, q.2 ++ [e]) :: groups from by
        simp [addToGroup, hq]]
      rcases List.mem_cons.mp hp with rfl | hpg
      · exact ⟨p.2 ++ [e], List.mem_cons_self _ _, fun x hx => List.mem_append_left _ hx⟩
      · exact ⟨p.2, List.mem_cons_of_mem _ (by simpa using hpg), fun x hx => hx⟩
    · rw [show addToGroup (q :: groups) d e = (q.1, q.2) :: addToGroup groups d e from by
        simp [addToGroup, hq]]
      rcases List.mem_cons.mp hp with rfl | hpg
      · exact ⟨p.2, List.mem_cons_self _ _, fun x hx => hx⟩
      · obtain ⟨g', hg', hsub⟩ := ih p hpg
        exact ⟨g', List.mem_cons_of_mem _ hg', hsub⟩

theorem addToGroup_self_mem (groups : List (String × List Entry)) (d : String)
    (e : Entry) : ∃ g', (d, g') ∈ addToGroup groups d e ∧ e ∈ g' := by
  induction groups with
  | nil => exact ⟨[e], List.mem_singleton_self _, List.mem_singleton_self _⟩
  | cons q groups ih =>
    by_cases hq : q.1 = d
    · rw [show addToGroup (q :: groups) d e = (q.1, q.2 ++ [e]) :: groups from by
        simp [addToGroup, hq]]
      exact ⟨q.2 ++ [e], by rw [hq]; exact List.mem_cons_self _ _,
        List.mem_append_right _ (List.mem_singleton_self e)⟩
    · rw [show addToGroup (q :: groups) d e = (q.1, q.2) :: addToGroup groups d e from by
        simp [addToGroup, hq]]
      obtain ⟨g', hg', he⟩ := ih
      exact ⟨g', List.mem_cons_of_mem _ hg', he⟩

/-- Fingerprint-distinct input entries grow the accumulator into
fingerprint-distinct, key-distinct, valid groups. -/
theorem processEntries_invariant (entries : List Entry)
    (hd : entries.Pairwise fun a b =>
      create_entry_fingerprint a ≠ create_entry_fingerprint b) :
    ∀ groups loaded skipped G L S, groupsInv groups → crossNe groups entries →
      processEntries groups loaded skipped entries = .ok (G, L, S) →
      groupsInv G := by
  induction entries with
  | nil =>
    intro groups l s G L S hinv _ hpe
    simp only [processEntries, Except.ok.injEq, Prod.mk.injEq] at hpe
    obtain ⟨rfl, -, -⟩ := hpe
    exact hinv
  | cons e rest ih =>
    intro groups l s G L S hinv hcross hpe
    have hdrest := (List.pairwise_cons.mp hd).2
    have hdhead := (List.pairwise_cons.mp hd).1
    have hcrossRest : crossNe groups rest := fun p hp x hx r hr =>
      hcross p hp x hx r (List.mem_cons_of_mem e hr)
    simp only [processEntries] at hpe
    by_cases hskip : e.date_int = none ∨ e.food_entry_id = none
    · rw [if_pos hskip] at hpe
      exact ih hdrest groups l (s + 1) G L S hinv hcrossRest hpe
    · rw [if_neg hskip] at hpe
      obtain ⟨hdate, hid⟩ := not_or.mp hskip
      cases hconv : convert_days_to_date (e.date_int.getD "") with
      | error err => rw [hconv] at hpe; cases hpe
      | ok od =>
        rw [hconv] at hpe
        cases od with
        | none => exact ih hdrest groups l (s + 1) G L S hinv hcrossRest hpe
        | some d =>
          refine ih hdrest (addToGroup groups d e) (l + 1) s G L S ⟨?_, ?_⟩ ?_ hpe
          · exact addToGroup_keys_nodup hinv.1
          · intro p hp
            have heOK : entryOK d e := by
              refine ⟨Option.isSome_iff_ne_none.mpr hid, ?_⟩
              obtain ⟨ds, hds⟩ := Option.ne_none_iff_exists'.mp hdate
              exact ⟨ds, hds, by rwa [hds] at hconv⟩
            rcases mem_addToGroup_cases hp with hpg | ⟨es, hes, rfl⟩ | rfl
            · exact hinv.2 p hpg
            · obtain ⟨hfpes, hesOK⟩ := hinv.2 (d, es) hes
              refine ⟨?_, ?_⟩
              · rw [fpDistinct, List.pairwise_append]
                refine ⟨hfpes, List.pairwise_singleton _ _, ?_⟩
                intro x hx y hy
                rw [List.mem_singleton.mp hy]
                exact hcross (d, es) hes x hx e (List.mem_cons_self e rest)
              · intro x hx
                rcases List.mem_append.mp hx with hxes | hxe
                · exact hesOK x hxes
                · rw [List.mem_singleton.mp hxe]; exact heOK
            · refine ⟨List.pairwise_singleton _ _, ?_⟩
              intro x hx
              rw [List.mem_singleton.mp hx]
              exact heOK
          · intro p hp x hx r hr
            rcases mem_addToGroup_cases hp with hpg | ⟨es, hes, rfl⟩ | rfl
            · exact hcross p hpg x hx r (List.mem_cons_of_mem e hr)
            · rcases List.mem_append.mp hx with hxes | hxe
              · exact hcross (d, es) hes x hxes r (List.mem_cons_of_mem e hr)
              · rw [List.mem_singleton.mp hxe]; exact hdhead r hr
            · rw [List.mem_singleton.mp hx]; exact hdhead r hr

/-- Groups already in the accumulator survive to the final grouping, with
their members intact. -/
theorem processEntries_groups_mono (entries : List Entry) :
    ∀ groups l s G L S, processEntries groups l s entries = .ok (G, L, S) →
      ∀ p ∈ groups, ∃ g', (p.1, g') ∈ G ∧ ∀ x ∈ p.2, x ∈ g' := by
  induction entries with
  | nil =>
    intro groups l s G L S hpe p hp
    simp only [processEntries, Except.ok.injEq, Prod.mk.injEq] at hpe
    obtain ⟨rfl, -, -⟩ := hpe
    exact ⟨p.2, by simpa using hp, fun x hx => hx⟩
  | cons e rest ih =>
    intro groups l s G L S hpe p hp
    simp only [processEntries] at hpe
    by_cases hskip : e.date_int = none ∨ e.food_entry_id = none
    · rw [if_pos hskip] at hpe
      exact ih groups l (s + 1) G L S hpe p hp
    · rw [if_neg hskip] at hpe
      cases hconv : convert_days_to_date (e.date_int.getD "") with
      | error err => rw [hconv] at hpe; cases hpe
      | ok od =>
        rw [hconv] at hpe
        cases od with
        | none => exact ih groups l (s + 1) G L S hpe p hp
        | some d =>
          obtain ⟨g1, hg1, hsub1⟩ := addToGroup_mono d e p hp
          obtain ⟨g', hg', hsub'⟩ := ih _ _ _ G L S hpe (p.1, g1) hg1
          exact ⟨g', hg', fun x hx => hsub' x (hsub1 x hx)⟩

/-- A valid, convertible entry ends up in the group of its human date. -/
theorem processEntries_places (entries : List Entry) :
    ∀ groups l s G L S, processEntries groups l s entries = .ok (G, L, S) →
      ∀ e ∈ entries, ∀ ds d, e.date_int = some ds → ¬ e.food_entry_id = none →
        convert_days_to_date ds = .ok (some d) →
        ∃ g, (d, g) ∈ G ∧ e ∈ g := by
  induction entries with
  | nil => intro groups l s G L S _ e he; cases he
  | cons x rest ih =>
    intro groups l s G L S hpe e he ds d hds hid hconv
    simp only [processEntries] at hpe
    rcases List.mem_cons.mp he with rfl | herest
    · rw [if_neg (by simp [hds, hid])] at hpe
      rw [show e.date_int.getD "" = ds from by rw [hds]; rfl, hconv] at hpe
      obtain ⟨g1, hg1, he1⟩ := addToGroup_self_mem groups d e
      obtain ⟨g', hg', hsub'⟩ :=
        processEntries_groups_mono rest _ _ _ G L S hpe (d, g1) hg1
      exact ⟨g', hg', hsub' e he1⟩
    · by_cases hskip : x.date_int = none ∨ x.food_entry_id = none
      · rw [if_pos hskip] at hpe
        exact ih groups l (s + 1) G L S hpe e herest ds d hds hid hconv
      · rw [if_neg hskip] at hpe
        cases hconvx : convert_days_to_date (x.date_int.getD "") with
        | error err => rw [hconvx] at hpe; cases hpe
        | ok od =>
          rw [hconvx] at hpe
          cases od with
          | none => exact ih groups l (s + 1) G L S hpe e herest ds d hds hid hconv
          | some dx => exact ih _ (l + 1) s G L S hpe e herest ds d hds hid hconv

/-- Bumping the skip accumulator commutes with the loop. -/
theorem processEntries_skipped_shift (entries : List Entry) :
    ∀ groups l s, processEntries groups l (s + 1) entries =
      (processEntries groups l s entries).map fun t => (t.1, t.2.1, t.2.2 + 1) := by
  induction entries with
  | nil => intro groups l s; rfl
  | cons e rest ih =>
    intro groups l s
    simp only [processEntries]
    by_cases hskip : e.date_int = none ∨ e.food_entry_id = none
    · rw [if_pos hskip, if_pos hskip]
      exact ih groups l (s + 1)
    · rw [if_neg hskip, if_neg hskip]
      cases convert_days_to_date (e.date_int.getD "") with
      | error err => rfl
      | ok od =>
        cases od with
        | none => exact ih groups l (s + 1)
        | some d => exact ih (addToGroup groups d e) (l + 1) s

/-- Inserting an entry the validation rejects anywhere in the input only
bumps the skip count: the grouping, and hence every bucket write, is
unchanged. -/
theorem processEntries_skip_insert {e : Entry} (he : entrySkipped e)
    (es2 : List Entry) :
    ∀ es1 groups l s, processEntries groups l s (es1 ++ e :: es2) =
      processEntries groups l (s + 1) (es1 ++ es2) := by
  intro es1
  induction es1 with
  | nil =>
    intro groups l s
    rw [List.nil_append, List.nil_append]
    show processEntries groups l s (e :: es2) = _
    simp only [processEntries]
    by_cases hskip : e.date_int = none ∨ e.food_entry_id = none
    · rw [if_pos hskip]
    · rcases he with hk | hc
      · exact absurd hk hskip
      · rw [if_neg hskip, hc]
  | cons x es1 ih =>
    intro groups l s
    rw [List.cons_append, List.cons_append]
    simp only [processEntries]
    by_cases hskip : x.date_int = none ∨ x.food_entry_id = none
    · rw [if_pos hskip, if_pos hskip]
      exact ih groups l (s + 1)
    · rw [if_neg hskip, if_neg hskip]
      cases convert_days_to_date (x.date_int.getD "") with
      | error err => rfl
      | ok od =>
        cases od with
        | none => exact ih groups l (s + 1)
        | some d => exact ih (addToGroup groups d x) (l + 1) s

/-- Function `load_entries_to_redis` treats a rejected entry as pure skip: same
resulting store, same writes, same loaded count, one more skip. -/
theorem load_skip_insert (cache : String → Option (List Entry))
    (mappings : String → Option String) (es1 es2 : List Entry) {e : Entry}
    (he : entrySkipped e) :
    load_entries_to_redis cache mappings (es1 ++ e :: es2) =
      (load_entries_to_redis cache mappings (es1 ++ es2)).map
        fun r => { r with skipped := r.skipped + 1, total := r.total + 1 } := by
  unfold load_entries_to_redis
  rw [processEntries_skip_insert he es2 es1, processEntries_skipped_shift]
  cases hpe : processEntries [] 0 0 (es1 ++ es2) with
  | error err => rfl
  | ok t =>
    simp only [Except.map_ok, Except.map]
    have hlen : (es1 ++ e :: es2).length = (es1 ++ es2).length + 1 := by
      simp [List.length_append]
      omega
    simp [hlen]

theorem fpDistinct_eq {l : List Entry} {a b : Entry} (h : fpDistinct l)
    (ha : a ∈ l) (hb : b ∈ l)
    (hfp : create_entry_fingerprint a = create_entry_fingerprint b) : a = b := by
  by_contra hne
  exact List.Pairwise.forall (fun {x y} hxy => (hxy ∘ Eq.symm)) h ha hb hne hfp

/-- The retry loop issues at most `maxRetries - attempt + 1` HTTP requests
from attempt index `attempt`. -/
theorem make_request_requests_le (maxRetries : Nat) (respond : Nat → HttpResponse) :
    ∀ fuel attempt, maxRetries ≤ attempt + fuel →
      (make_request maxRetries respond attempt).requests ≤ maxRetries - attempt + 1 := by
  intro fuel
  induction fuel with
  | zero =>
    intro attempt hle
    rw [make_request.eq_def]
    split
    · simp
    · rw [if_neg fun hc => absurd hc.2 (by omega)]
      simp
    · rw [if_neg (by omega)]
      simp
  | succ fuel ih =>
    intro attempt hle
    rw [make_request.eq_def]
    split
    · simp
    · split
      · have := ih (attempt + 1) (by omega)
        simp only []
        omega
      · simp
    · split
      · have := ih (attempt + 1) (by omega)
        simp only []
        omega
      · simp

theorem dayRange_cons {lo hi : Int} (hle : lo ≤ hi) :
    dayRange lo hi = lo :: dayRange (lo + 1) hi := by
  unfold dayRange
  have hsucc : (hi + 1 - lo).toNat = (hi + 1 - (lo + 1)).toNat + 1 := by omega
  rw [hsucc, List.range_succ_eq_map, List.map_cons, List.map_map]
  refine congrArg₂ _ (by omega) (List.map_congr_left fun i _ => ?_)
  show lo + (i + 1 : Nat) = lo + 1 + i
  push_cast
  omega

theorem dayRange_stop {lo hi : Int} (hgt : ¬ lo ≤ hi) : dayRange lo hi = [] := by
  unfold dayRange
  rw [show (hi + 1 - lo).toNat = 0 from by omega]
  rfl

/-- Full characterization of the range walk: one call per day of the closed
range, successful payloads collected in order, failing days collected in
the skip report, a failure never stopping the walk. -/
theorem fetchRangeLoop_spec (fetch : Int → Except String String) :
    ∀ fuel (lo hi : Int), (hi + 1 - lo).toNat ≤ fuel →
      fetchRangeLoop fetch hi lo =
        { results := rangeResults fetch lo hi
          skipped := rangeSkipped fetch lo hi
          called := dayRange lo hi } := by
  intro fuel
  induction fuel with
  | zero =>
    intro lo hi hb
    have hgt : ¬ lo ≤ hi := by omega
    rw [fetchRangeLoop.eq_def, dif_neg hgt]
    simp [rangeResults, rangeSkipped, dayRange_stop hgt]
  | succ fuel ih =>
    intro lo hi hb
    by_cases hle : lo ≤ hi
    · rw [fetchRangeLoop.eq_def, dif_pos hle, ih (lo + 1) hi (by omega)]
      have hcons := dayRange_cons hle
      cases hf : fetch lo with
      | ok v =>
        simp [mergeDayResult, rangeResults, rangeSkipped, hcons, hf,
          List.filterMap_cons, Except.toOption]
      | error msg =>
        simp [mergeDayResult, rangeResults, rangeSkipped, hcons, hf,
          List.filterMap_cons, Except.toOption]
    · rw [fetchRangeLoop.eq_def, dif_neg hle]
      simp [rangeResults, rangeSkipped, dayRange_stop hle]

/-- C5, counterexample.  The claim says `TokenStore.load` never raises, for
both cited implementations; but `TokenManager._load_tokens` in
`src/calorista/utils/auth.py` runs `json.load` on any existing file with no
`try`/`except` and no size check, so a zero-byte backing file makes it
propagate a `JSONDecodeError` instead of returning the empty result. -/
theorem C5_load_raises_on_empty_file :
    CaloristaTokenManager.load_tokens .emptyFile = .error .valueError ∧
      CaloristaTokenManager.load_tokens .malformed = .error .valueError := by
  constructor <;> rfl

/-- C5, amended: `TokenManager._load_tokens` in `src/utils/token_manager.py`
(and `CredentialEngine._load_tokens`) returns the empty dict, raising
nothing, when the backing file is missing, zero bytes long, or malformed
JSON; the duplicate `TokenManager` in `src/calorista/utils/auth.py` returns
empty only for a missing file and propagates the decode error otherwise. -/
theorem C5_amended_load_fails_soft :
    TokenManager.load_tokens .missing = [] ∧
      TokenManager.load_tokens .emptyFile = [] ∧
      TokenManager.load_tokens .malformed = [] ∧
      CaloristaTokenManager.load_tokens .missing = .ok [] := by
  refine ⟨rfl, rfl, rfl, rfl⟩

/-- C9: after `save_tokens(pair)` with a non-empty pair, `get_tokens`
returns exactly that pair, and re-reading the backing file through
`_load_tokens` (what a fresh `TokenManager` does) also returns exactly that
pair. -/
theorem C9_save_load_roundtrip (st : TokenManagerState)
    (pair : List (String × String)) (h : pair ≠ []) :
    TokenManager.get_tokens (TokenManager.save_tokens st pair) = some pair ∧
      TokenManager.load_tokens (TokenManager.save_tokens st pair).file = pair := by
  refine ⟨?_, rfl⟩
  simp [TokenManager.get_tokens, TokenManager.save_tokens, h]

/-- C9 witness: the round trip at a concrete non-empty token pair. -/
theorem C9_save_load_roundtrip_witness :
    TokenManager.get_tokens
        (TokenManager.save_tokens ⟨.missing, []⟩ [("oauth_token", "tok")]) =
        some [("oauth_token", "tok")] ∧
      TokenManager.load_tokens
        (TokenManager.save_tokens ⟨.missing, []⟩ [("oauth_token", "tok")]).file =
        [("oauth_token", "tok")] :=
  C9_save_load_roundtrip ⟨.missing, []⟩ [("oauth_token", "tok")] (by decide)

/-- C7: the OAuth signature is invariant under any permutation of the input
parameter mapping, for every abstract HMAC-SHA1 primitive and all secrets,
because `_generate_signature` sorts the items internally. -/
theorem C7_signature_permutation_invariant
    (hmacSha1B64 : String → String → String) (url consumerSecret tokenSecret : String)
    (l₁ l₂ : List (String × String)) (h : l₁.Perm l₂) :
    generate_signature hmacSha1B64 url consumerSecret tokenSecret l₁ =
      generate_signature hmacSha1B64 url consumerSecret tokenSecret l₂ := by
  have hsort : sortedParams l₁ = sortedParams l₂ :=
    List.eq_of_perm_of_sorted
      (((List.perm_insertionSort pairLe l₁).trans h).trans
        (List.perm_insertionSort pairLe l₂).symm)
      (List.sorted_insertionSort pairLe l₁)
      (List.sorted_insertionSort pairLe l₂)
  unfold generate_signature
  rw [hsort]

/-- C7 witness: the invariance at a concrete reordered mapping. -/
theorem C7_signature_permutation_invariant_witness :
    generate_signature (fun k b => k ++ "#" ++ b) "https://u" "cs" "ts"
        [("method", "profile.get"), ("format", "json")] =
      generate_signature (fun k b => k ++ "#" ++ b) "https://u" "cs" "ts"
        [("format", "json"), ("method", "profile.get")] :=
  C7_signature_permutation_invariant (fun k b => k ++ "#" ++ b) "https://u" "cs" "ts"
    [("method", "profile.get"), ("format", "json")]
    [("format", "json"), ("method", "profile.get")] (by decide)

/-- C4, counterexample.  The claim bounds the total number of HTTP attempts
for one call by `max_retries` (default 2); but `_make_request` starts at
`attempt = 0` and retries while `attempt < self.max_retries`, so with the
default configuration and a persistent token-related 401 it issues three
HTTP requests. -/
theorem C4_three_attempts_with_default_retries :
    (make_request 2 (fun _ => .httpError 401 "invalid token") 0).requests = 3 ∧
      ¬ (make_request 2 (fun _ => .httpError 401 "invalid token") 0).requests ≤ 2 := by
  constructor <;> (simp [make_request]; decide)

/-- C4, amended: `_make_request` issues at most `max_retries + 1` HTTP
attempts in total (`max_retries` retries after the initial attempt); and on
a non-200 token-related first response with at least one retry available it
performs exactly one token refresh and one retried request, succeeding with
the parsed body when that second attempt returns 200. -/
theorem C4_amended_retry_bound_and_refresh (maxRetries : Nat)
    (respond : Nat → HttpResponse) :
    (make_request maxRetries respond 0).requests ≤ maxRetries + 1 ∧
      ∀ status body b, respond 0 = .httpError status body →
        bodyMentionsToken body = true → 1 ≤ maxRetries → respond 1 = .ok b →
        make_request maxRetries respond 0 =
          { result := .ok b, requests := 2, refreshes := 1 } := by
  constructor
  · have := make_request_requests_le maxRetries respond maxRetries 0 (by omega)
    omega
  · intro status body b h0 htok hret h1
    rw [make_request.eq_def, h0]
    simp only []
    rw [if_pos ⟨htok, by omega⟩, make_request.eq_def, h1]

/-- C4 witness: concrete run at the default `max_retries = 2` with a
token-related 401 then a 200. -/
theorem C4_amended_retry_bound_and_refresh_witness :
    (make_request 2 c4respond 0).requests ≤ 3 ∧
      make_request 2 c4respond 0 =
        { result := .ok "profile-body", requests := 2, refreshes := 1 } :=
  ⟨(C4_amended_retry_bound_and_refresh 2 c4respond).1,
    (C4_amended_retry_bound_and_refresh 2 c4respond).2 401 "Missing oauth token"
      "profile-body" rfl (by decide) (by decide) rfl⟩

/-- C6: over every closed day range the fetch calls `_make_request` once
per calendar day; a day whose call raises is reported in the skip log (the
printed failure list) without aborting the walk, and every other day's
payload is still returned. -/
theorem C6_range_fetch_per_day (fetch : Int → Except String String)
    (sd ed : String) (lo hi : Int) (hs : parseDateToDays sd = some lo)
    (he : parseDateToDays ed = some hi) :
    get_historical_food_entries fetch sd ed =
      .ok { results := rangeResults fetch lo hi
            skipped := rangeSkipped fetch lo hi
            called := dayRange lo hi } := by
  unfold get_historical_food_entries
  rw [hs, he]
  show Except.ok (fetchRangeLoop fetch hi lo) = _
  rw [fetchRangeLoop_spec fetch (hi + 1 - lo).toNat lo hi le_rfl]

/-- C6 witness: the spec's scenario — range 2025-04-07 to 2025-04-09 with
2025-04-08 failing still returns the other two days and reports the failed
day. -/
theorem C6_range_fetch_per_day_witness :
    get_historical_food_entries fetchMiddleFails "2025-04-07" "2025-04-09" =
      .ok { results := ["seven", "nine"], skipped := [(20186, "boom")],
            called := [20185, 20186, 20187] } := by
  rw [C6_range_fetch_per_day fetchMiddleFails "2025-04-07" "2025-04-09" 20185 20187
    (by decide) (by decide)]
  decide

/-- C1, counterexample.  The claim quantifies over every list of fetched
entries; feed the merge two entries with equal fingerprints but different
contents (`ceApple`, `ceBanana`) and the second run against the first run's
cache performs a write again and changes the bucket (from both entries to
just `ceApple`), so re-running is not idempotent in general. -/
theorem C1_second_sync_writes_again :
    syncTwiceObservation =
      .ok (["2025-04-02"], some [ceApple, ceBanana], some [ceApple]) := by
  decide

/-- C1, amended: when the fetched entries have pairwise-distinct
fingerprints — which the fetch stage guarantees by dropping
already-seen fingerprints before handing entries to the merge — re-running
`load_entries_to_redis` with the same entries against the cache produced by
the first run performs zero bucket writes and leaves every bucket exactly
as the first run left it. -/
theorem C1_amended_sync_idempotent (cache : String → Option (List Entry))
    (mappings : String → Option String) (entries : List Entry)
    (hd : entries.Pairwise fun a b =>
      create_entry_fingerprint a ≠ create_entry_fingerprint b)
    (r1 r2 : LoadResult)
    (h1 : load_entries_to_redis cache mappings entries = .ok r1)
    (h2 : load_entries_to_redis r1.state.cache r1.state.mappings entries = .ok r2) :
    r2.state.writes = [] ∧ ∀ k, r2.state.cache k = r1.state.cache k := by
  unfold load_entries_to_redis at h1 h2
  cases hpe : processEntries [] 0 0 entries with
  | error err => rw [hpe] at h1; cases h1
  | ok t =>
    obtain ⟨G, L, S⟩ := t
    rw [hpe] at h1 h2
    injection h1 with h1
    injection h2 with h2
    have hinvG : groupsInv G :=
      processEntries_invariant entries hd [] 0 0 G L S
        ⟨List.nodup_nil, fun p hp => absurd hp (List.not_mem_nil p)⟩
        (fun p hp => absurd hp (List.not_mem_nil p)) hpe
    have hok : ∀ p ∈ G, fpDistinct p.2 ∧ ∀ e ∈ p.2, e.food_entry_id.isSome :=
      fun p hp => ⟨(hinvG.2 p hp).1, fun e heg => ((hinvG.2 p hp).2 e heg).1⟩
    have hestab := processGroups_establishes G
      { cache := cache, mappings := mappings, writes := [] } hinvG.1 hok
    have hs1 : r1.state = processGroups
        { cache := cache, mappings := mappings, writes := [] } G := by
      rw [← h1]
    have hnoop : processGroups
        { cache := r1.state.cache, mappings := r1.state.mappings, writes := [] } G =
        { cache := r1.state.cache, mappings := r1.state.mappings, writes := [] } := by
      refine processGroups_noop G _ fun p hp e heg => ?_
      show lookupLastFp ((r1.state.cache ("food_entries:" ++ p.1)).getD [])
        (create_entry_fingerprint e) = some e
      rw [hs1]
      exact hestab p hp e heg
    have hs2 : r2.state = SyncState.mk r1.state.cache r1.state.mappings [] := by
      rw [← h2]
      exact hnoop
    rw [hs2]
    exact ⟨rfl, fun k => rfl⟩

/-- C1 witness: idempotence at a concrete single-entry sync. -/
theorem C1_amended_sync_idempotent_witness :
    c1run2.state.writes = [] ∧
      c1run2.state.cache "food_entries:2025-04-02" =
        c1run1.state.cache "food_entries:2025-04-02" := by
  have h := C1_amended_sync_idempotent emptyCache emptyMappings [ceApple]
    (by decide) c1run1 c1run2 rfl rfl
  exact ⟨h.1, h.2 "food_entries:2025-04-02"⟩

/-- C2, counterexample.  The claim quantifies over every list of new
entries; two new entries with equal fingerprints and different names are
both kept by the merge, so the merged bucket can hold two entries with the
same fingerprint. -/
theorem C2_duplicate_fingerprints_both_stored :
    create_entry_fingerprint ceApple = create_entry_fingerprint ceBanana ∧
      ceApple ≠ ceBanana ∧
      bucketAfterMerge [] [ceApple, ceBanana] = [ceApple, ceBanana] := by
  decide

/-- C2, amended: provided the existing bucket and the incoming date group
each contain pairwise-distinct fingerprints (the fetch stage's dedup
guarantees the latter), the merged bucket again has at most one entry per
fingerprint; and when a stored entry and a new entry share a fingerprint
but differ in content, the merge keeps exactly the new (replacement) entry
and drops the stored one.  Two same-fingerprint entries arriving in the
same new batch are, however, both stored. -/
theorem C2_amended_merge_dedup (existing newEntries : List Entry)
    (hex : fpDistinct existing) (hnew : fpDistinct newEntries) :
    fpDistinct (bucketAfterMerge existing newEntries) ∧
      ∀ ex enew, ex ∈ existing → enew ∈ newEntries →
        create_entry_fingerprint ex = create_entry_fingerprint enew → ex ≠ enew →
        enew ∈ bucketAfterMerge existing newEntries ∧
          ex ∉ bucketAfterMerge existing newEntries := by
  constructor
  · unfold bucketAfterMerge
    split
    · exact hex
    · rw [fpDistinct, mergedEntries, List.pairwise_append]
      refine ⟨List.Pairwise.filter _ hex,
        List.Pairwise.sublist (entriesToUpdate_sublist _ _) hnew, ?_⟩
      intro a ha b hb
      have hafp : create_entry_fingerprint a ∉
          (entriesToUpdate existing newEntries).map create_entry_fingerprint := by
        have := (List.mem_filter.mp ha).2
        simpa using this
      intro heq
      exact hafp (heq ▸ List.mem_map_of_mem create_entry_fingerprint hb)
  · intro ex enew hexm hnewm hfp hne
    have henewU : enew ∈ entriesToUpdate existing newEntries := by
      refine mem_entriesToUpdate.mpr ⟨hnewm, ?_⟩
      cases hl : lookupLastFp existing (create_entry_fingerprint enew) with
      | none => exact fun habs => Option.noConfusion habs
      | some y =>
        obtain ⟨hyB, -, hyfp⟩ := lookupLastFp_mem hl
        have hyex : y = ex := fpDistinct_eq hex hyB hexm (hyfp.trans hfp.symm)
        intro habs
        injection habs with habs
        exact hne (hyex ▸ habs)
    have hUne : entriesToUpdate existing newEntries ≠ [] :=
      List.ne_nil_of_mem henewU
    unfold bucketAfterMerge
    rw [if_neg hUne]
    constructor
    · exact List.mem_append_right _ henewU
    · intro habs
      rcases List.mem_append.mp habs with hleft | hright
      · have hdec := (List.mem_filter.mp hleft).2
        have : create_entry_fingerprint ex ∉
            (entriesToUpdate existing newEntries).map create_entry_fingerprint := by
          simpa using hdec
        exact this (hfp ▸ List.mem_map_of_mem create_entry_fingerprint henewU)
      · have hexNew : ex ∈ newEntries := (entriesToUpdate_sublist _ _).subset hright
        exact hne (fpDistinct_eq hnew hexNew hnewm hfp)

/-- C2 witness: a stored `ceApple` is replaced, not duplicated, by the
same-fingerprint `ceBanana`. -/
theorem C2_amended_merge_dedup_witness :
    fpDistinct (bucketAfterMerge [ceApple] [ceBanana]) ∧
      ceBanana ∈ bucketAfterMerge [ceApple] [ceBanana] ∧
      ceApple ∉ bucketAfterMerge [ceApple] [ceBanana] := by
  have h := C2_amended_merge_dedup [ceApple] [ceBanana] (by decide) (by decide)
  have h2 := h.2 ceApple ceBanana (by decide) (by decide) (by decide) (by decide)
  exact ⟨h.1, h2.1, h2.2⟩

/-- C3, counterexample.  Day 20180 from 1970-01-01 is 2025-04-02, not
2025-04-07 (that is day 20185): the sync converts correctly but the claimed
bucket name is five days off, so the entry lands in `"2025-04-02"` and
bucket `"2025-04-07"` stays absent. -/
theorem C3_day_20180_is_not_2025_04_07 :
    convert_days_to_date "20180" = .ok (some "2025-04-02") ∧
      c3run.state.cache "food_entries:2025-04-07" = none ∧
      c3run.state.cache "food_entries:2025-04-02" = some [ceDay] ∧
      load_entries_to_redis emptyCache emptyMappings [ceDay] = .ok c3run :=
  ⟨by decide, by decide, by decide, rfl⟩

/-- C3, amended: sync places each valid entry in the bucket named by
converting its `date_int` as a plain UTC day offset from 1970-01-01
(assuming the fetch stage's distinct-fingerprint guarantee); in particular
an entry with `date_int` 20180 is placed in bucket `"2025-04-02"`, since
20180 days from 1970-01-01 is 2025-04-02 (2025-04-07 is day 20185). -/
theorem C3_amended_bucket_by_day_offset :
    (∀ (cache : String → Option (List Entry)) (mappings : String → Option String)
      (entries : List Entry),
      entries.Pairwise (fun a b =>
        create_entry_fingerprint a ≠ create_entry_fingerprint b) →
      ∀ r, load_entries_to_redis cache mappings entries = .ok r →
      ∀ e ∈ entries, ∀ ds d, e.date_int = some ds → ¬ e.food_entry_id = none →
        convert_days_to_date ds = .ok (some d) →
        ∃ bucket, r.state.cache ("food_entries:" ++ d) = some bucket ∧ e ∈ bucket) ∧
      convert_days_to_date "20180" = .ok (some "2025-04-02") := by
  constructor
  · intro cache mappings entries hd r hr e he ds d hds hid hconv
    unfold load_entries_to_redis at hr
    cases hpe : processEntries [] 0 0 entries with
    | error err => rw [hpe] at hr; cases hr
    | ok t =>
      obtain ⟨G, L, S⟩ := t
      rw [hpe] at hr
      injection hr with hr
      have hinvG : groupsInv G :=
        processEntries_invariant entries hd [] 0 0 G L S
          ⟨List.nodup_nil, fun p hp => absurd hp (List.not_mem_nil p)⟩
          (fun p hp => absurd hp (List.not_mem_nil p)) hpe
      obtain ⟨g, hgG, heg⟩ :=
        processEntries_places entries [] 0 0 G L S hpe e he ds d hds hid hconv
      have hok : ∀ p ∈ G, fpDistinct p.2 ∧ ∀ x ∈ p.2, x.food_entry_id.isSome :=
        fun p hp => ⟨(hinvG.2 p hp).1, fun x hx => ((hinvG.2 p hp).2 x hx).1⟩
      have hlook := processGroups_establishes G
        { cache := cache, mappings := mappings, writes := [] } hinvG.1 hok
        (d, g) hgG e heg
      have hsr : r.state = processGroups
          { cache := cache, mappings := mappings, writes := [] } G := by
        rw [← hr]
      rw [← hsr] at hlook
      cases hbucket : r.state.cache ("food_entries:" ++ d) with
      | none =>
        rw [hbucket] at hlook
        simp [lookupLastFp] at hlook
      | some bucket =>
        refine ⟨bucket, rfl, ?_⟩
        rw [hbucket] at hlook
        exact (lookupLastFp_mem hlook).1
  · decide

/-- C3 witness: the general placement theorem applied at the concrete
day-20180 entry lands it in bucket 2025-04-02. -/
theorem C3_amended_bucket_by_day_offset_witness :
    ∃ bucket, c3run.state.cache ("food_entries:" ++ "2025-04-02") = some bucket ∧
      ceDay ∈ bucket :=
  C3_amended_bucket_by_day_offset.1 emptyCache emptyMappings [ceDay] (by decide)
    c3run rfl ceDay (by decide) "20180" "2025-04-02" rfl (by decide)
    (by decide)

/-- C8: an entry lacking `date_int` or `food_entry_id` is counted as
skipped and changes nothing else: same final buckets, same writes, same
mapping hash, same loaded count, one more skip — and the batch is not
aborted (the result is an error exactly when the remaining entries cause
one). -/
theorem C8_invalid_entry_only_skips (cache : String → Option (List Entry))
    (mappings : String → Option String) (es1 es2 : List Entry) (e : Entry)
    (h : e.date_int = none ∨ e.food_entry_id = none) :
    load_entries_to_redis cache mappings (es1 ++ e :: es2) =
      (load_entries_to_redis cache mappings (es1 ++ es2)).map
        fun r => { r with skipped := r.skipped + 1, total := r.total + 1 } :=
  load_skip_insert cache mappings es1 es2 (Or.inl h)

/-- C8 witness: dropping a `date_int`-less entry into a concrete batch only
bumps the skip counter. -/
theorem C8_invalid_entry_only_skips_witness :
    load_entries_to_redis emptyCache emptyMappings ([] ++ ceNoDate :: [ceDay]) =
      (load_entries_to_redis emptyCache emptyMappings ([] ++ [ceDay])).map
        fun r => { r with skipped := r.skipped + 1, total := r.total + 1 } :=
  C8_invalid_entry_only_skips emptyCache emptyMappings [] [ceDay] ceNoDate
    (Or.inl rfl)

/-- C10, counterexample.  `convert_days_to_date` is not total over
arbitrary strings: `int(float("inf"))` raises `OverflowError`, which the
`except (ValueError, TypeError)` clause does not catch, so the conversion
— and the whole sync batch — aborts instead of skipping the entry. -/
theorem C10_inf_overflow_escapes :
    convert_days_to_date "inf" = .error .overflowError ∧
      load_entries_to_redis emptyCache emptyMappings [ceInf] =
        .error .overflowError :=
  ⟨by decide, rfl⟩

/-- C10, amended: for every input string that does not parse as a Python
float the conversion returns `None` rather than raising, and sync counts
the entry as skipped with no bucket mutation; but the conversion is not
total over arbitrary strings — an input parsing to an infinity (or to a
day count outside `datetime`'s year range) raises an uncaught
`OverflowError`. -/
theorem C10_amended_unparsable_date_skipped :
    (∀ s, pyIntFloat s = .invalid → convert_days_to_date s = .ok none) ∧
      (∀ (cache : String → Option (List Entry)) (mappings : String → Option String)
        (es1 es2 : List Entry) (e : Entry),
        convert_days_to_date (e.date_int.getD "") = .ok none →
        load_entries_to_redis cache mappings (es1 ++ e :: es2) =
          (load_entries_to_redis cache mappings (es1 ++ es2)).map
            fun r => { r with skipped := r.skipped + 1, total := r.total + 1 }) := by
  constructor
  · intro s h
    unfold convert_days_to_date
    rw [h]
  · intro cache mappings es1 es2 e hconv
    exact load_skip_insert cache mappings es1 es2 (Or.inr hconv)

/-- C10 witness: the non-numeric string `"abc"` converts to `None` and the
corresponding entry is skipped without any bucket mutation. -/
theorem C10_amended_unparsable_date_skipped_witness :
    convert_days_to_date "abc" = .ok none ∧
      load_entries_to_redis emptyCache emptyMappings ([] ++ ceBadDate :: [ceDay]) =
        (load_entries_to_redis emptyCache emptyMappings ([] ++ [ceDay])).map
          fun r => { r with skipped := r.skipped + 1, total := r.total + 1 } :=
  ⟨C10_amended_unparsable_date_skipped.1 "abc" (by decide),
    C10_amended_unparsable_date_skipped.2 emptyCache emptyMappings [] [ceDay]
      ceBadDate (by decide)⟩

end Calorista
